import Mathlib

/-!
Verification development for the Danish recipe-ingredient parser in
`src/server/main.py` of the recipe-calculator repository.

The Python parsing core is shallowly embedded: Python strings are modelled as
Lean `String` (a structure over `List Char`), and each Python function of the
parsing pipeline (`clean_danish_text`, `clean_ingredient_name`,
`normalize_unit`, `parse_ingredient_text`, `parse_ingredients_from_text`)
becomes an executable Lean definition of the same name.  The few regular
expressions the source uses are fixed, concrete patterns; each is embedded as a
deterministic scanner that implements exactly the behaviour of the Python `re`
module on that pattern (leftmost match, greedy/non-greedy as in the pattern,
global substitution continuing after each match).
-/

set_option maxRecDepth 4000

namespace RecipeCalc

/-! ## Character primitives (Python `str.lower`, `str.strip`, `str.split`, `\s`, `\d`, `\w`, `\b`) -/

/-- Uppercase → lowercase table covering the character repertoire of this
application (ASCII letters plus the Danish letters Æ, Ø, Å); models Python
`str.lower` restricted to these letters, which are the only cased characters in
the lexicon and in Danish recipe text. -/
def upperLowerTable : List (Char × Char) :=
  [('A','a'), ('B','b'), ('C','c'), ('D','d'), ('E','e'), ('F','f'), ('G','g'),
   ('H','h'), ('I','i'), ('J','j'), ('K','k'), ('L','l'), ('M','m'), ('N','n'),
   ('O','o'), ('P','p'), ('Q','q'), ('R','r'), ('S','s'), ('T','t'), ('U','u'),
   ('V','v'), ('W','w'), ('X','x'), ('Y','y'), ('Z','z'),
   ('Æ','æ'), ('Ø','ø'), ('Å','å')]

/-- Lowercase one character (Python `str.lower`, per character). -/
def pyCharLower (c : Char) : Char :=
  match upperLowerTable.find? (fun p => p.fst == c) with
  | some p => p.snd
  | none => c

/-- Lowercase a character list (Python `str.lower`). -/
def lowerChars (l : List Char) : List Char := l.map pyCharLower

/-- Python whitespace (`str.strip` / `str.split()` / regex `\s`, ASCII range). -/
def isSpaceChar (c : Char) : Bool :=
  c == ' ' || c == '\t' || c == '\n' || c == '\r' || c == '\x0b' || c == '\x0c'

/-- Regex `\d` (ASCII decimal digits). -/
def isDigitChar (c : Char) : Bool := '0' ≤ c && c ≤ '9'

/-- Regex `\w` for the character repertoire of this application: ASCII
alphanumerics and underscore, the Danish letters, and the vulgar-fraction
glyphs (which are Unicode numeric characters, hence word characters for
Python's Unicode-aware `\w`). -/
def isWordChar (c : Char) : Bool :=
  c.isAlpha || c.isDigit || c == '_' ||
  c == 'æ' || c == 'ø' || c == 'å' || c == 'Æ' || c == 'Ø' || c == 'Å' ||
  c == '½' || c == '¼' || c == '¾'

/-- Remove a trailing run of characters satisfying `p` (a structural right-strip). -/
def rdropRun (p : Char → Bool) : List Char → List Char
  | [] => []
  | c :: cs =>
    match rdropRun p cs with
    | [] => if p c then [] else [c]
    | r => c :: r

/-- Python `str.strip()`: drop leading and trailing whitespace. -/
def stripChars (l : List Char) : List Char :=
  rdropRun isSpaceChar (l.dropWhile isSpaceChar)

/-- Helper for `splitWs`: accumulate the current token (held reversed). -/
def splitWsGo : List Char → List Char → List (List Char)
  | [], cur => if cur = [] then [] else [cur.reverse]
  | c :: cs, cur =>
    if isSpaceChar c then
      if cur = [] then splitWsGo cs [] else cur.reverse :: splitWsGo cs []
    else splitWsGo cs (c :: cur)

/-- Python `str.split()` with no argument: split on whitespace runs, dropping
empty tokens. -/
def splitWs (l : List Char) : List (List Char) := splitWsGo l []

/-- Join tokens with single spaces (Python `' '.join`). -/
def joinSpace (ls : List (List Char)) : List Char := List.intercalate [' '] ls

/-- Python `text.split('\n')`: split on newlines, keeping empty lines. -/
def splitLinesGo : List Char → List Char → List (List Char)
  | [], cur => [cur.reverse]
  | c :: cs, cur =>
    if c == '\n' then cur.reverse :: splitLinesGo cs [] else splitLinesGo cs (c :: cur)

def splitLines (l : List Char) : List (List Char) := splitLinesGo l []

/-- `listStarts p l`: `l` begins with `p` (character-exact). -/
def listStarts : List Char → List Char → Bool
  | [], _ => true
  | _ :: _, [] => false
  | p :: ps, c :: cs => p == c && listStarts ps cs

/-- `listHasSub p l`: `p` occurs as a contiguous substring of `l`
(Python `p in l`). -/
def listHasSub (p l : List Char) : Bool :=
  match l with
  | [] => p.isEmpty
  | _ :: cs => listStarts p l || listHasSub p cs

/-! ## Lexicon (the module-level tables of `main.py`, in source order) -/

/-- `DANISH_CORRECTIONS` (misspelling → correct word), `main.py` lines 36-58. -/
def DANISH_CORRECTIONS : List (String × String) :=
  [("ræsk", "græsk"), ("yohurt", "yoghurt"), ("hviøg", "hvidløg"),
   ("kyllinebryst", "kyllingebryst"), ("spisesked", "spiseske"),
   ("tesked", "teske"), ("stykher", "stykker"), ("pakher", "pakker"),
   ("daser", "dåser"), ("dose", "dåse"), ("øg", "løg"), ("røøg", "rødløg"),
   ("fed hviøg", "fed hvidløg"), ("citroner", "citron"),
   ("kartofier", "kartofler"), ("guierod", "gulerod"),
   ("guierødder", "gulerødder"), ("tomatcr", "tomater"),
   ("basilikuni", "basilikum"), ("persilje", "persille")]

/-- `DANISH_UNITS` (standard abbreviation → expansion), `main.py` lines 61-75. -/
def DANISH_UNITS : List (String × String) :=
  [("spsk", "spiseske"), ("tsk", "teske"), ("stk", "stykker"), ("pk", "pakke"),
   ("dl", "deciliter"), ("g", "gram"), ("kg", "kilogram"), ("l", "liter"),
   ("ml", "milliliter"), ("cl", "centiliter"), ("ds", "dåse")]

/-- `SPECIAL_DANISH_UNITS` (never converted), `main.py` lines 78-81. -/
def SPECIAL_DANISH_UNITS : List String :=
  ["fed", "håndfuld", "håndfulde", "knivspids", "pind", "pose", "bundt",
   "bundle", "neve", "klat", "skive", "klump"]

/-- `INGREDIENT_CORE_MAPPING` (canonical name → variants), `main.py` lines 84-89. -/
def INGREDIENT_CORE_MAPPING : List (String × List String) :=
  [("hvidløg", ["hvidløgsfed"]),
   ("persille", ["bredbladet persille", "bladpersille"]),
   ("basilikum", ["frisk basilikum"]),
   ("tomater", ["hakkede tomater", "cherry tomater", "cocktail tomater"])]

/-- `NON_INGREDIENT_WORDS`, `main.py` lines 92-96. -/
def NON_INGREDIENT_WORDS : List String :=
  ["styrke", "mere", "mindre", "efter", "smag", "behov", "ønske", "cirka",
   "ca", "evt", "eventuelt", "til", "som", "eller", "og", "af", "med", "uden",
   "for", "servering", "pynt", "garnering", "side", "ekstra", "let", "god",
   "fin", "stor", "lille"]

/-- `prep_terms` of `clean_ingredient_name`, `main.py` lines 186-191. -/
def prep_terms : List String :=
  ["finthakkede", "fintrevet", "hakket", "finsnittet", "opskåret", "skårne",
   "skåret", "delte", "opdelte", "smuldret", "fintsnittet", "groftrevet",
   "kogte", "ristede", "sautéede", "opvarmede", "grillede", "stegte",
   "blancherede", "røget", "skrællede", "rensede", "pressede", "finthakket",
   "grofthakket"]

/-- `instruction_indicators` of `parse_ingredients_from_text`, `main.py` line 287. -/
def instruction_indicators : List String :=
  ["bland", "tilsæt", "hæld", "kog", "steg", "varm", "server", "rør", "kom"]

/-! ## Data model -/

/-- The `Ingredient` Pydantic model, `main.py` lines 24-27. -/
structure Ingredient where
  name : String
  amount : String
  unit : String
deriving DecidableEq, Repr

/-! ## `clean_danish_text` (`main.py` lines 146-167)

The `encode('utf-8', errors='ignore').decode('utf-8')` pass drops nothing for
well-formed text (every Lean `String` is well-formed Unicode) and is therefore
the identity in this model.  Each whitespace token is looked up, literally and
wholly, first in `DANISH_CORRECTIONS`, then in `DANISH_UNITS`; as in the
Python loop the second `if` is keyed on the original token `word`, not on the
possibly corrected `words[i]`. -/

/-- The body of the per-token loop of `clean_danish_text`: the correction
assignment runs first, but the unit `if` is keyed on the original token `word`
and overwrites `words[i]`, so the final value of a token is the unit expansion
when the token is a unit key, otherwise the correction when it is a correction
key, otherwise the token itself. -/
def normTokenCdt (w : List Char) : List Char :=
  match DANISH_UNITS.lookup (String.mk w) with
  | some u => u.data
  | none =>
    match DANISH_CORRECTIONS.lookup (String.mk w) with
    | some c => c.data
    | none => w

def clean_danish_text (text : String) : String :=
  String.mk (joinSpace ((splitWs (stripChars (lowerChars text.data))).map normTokenCdt))

/-! ## `normalize_unit` (`main.py` lines 214-228) -/

/-- `unit_lower = unit.lower().strip()` is written out in full at each use
below (rather than named with a `let`) to keep rewriting simple. -/
def normalize_unit (u : String) : String :=
  if u = "" then ""
  else if String.mk (stripChars (lowerChars u.data)) ∈ SPECIAL_DANISH_UNITS then
    String.mk (stripChars (lowerChars u.data))
  else
    match DANISH_UNITS.lookup (String.mk (stripChars (lowerChars u.data))) with
    | some e => e
    | none => String.mk (stripChars (lowerChars u.data))

/-! ## `clean_ingredient_name` (`main.py` lines 169-212)

The three `specific_patterns` substitutions and the `prep_pattern`
substitution are global `re.sub` replacements by the empty string.  Each
pattern is embedded as a matcher `List Char → Option (List Char)` returning
the remainder after a match anchored at the current position, and a generic
fuelled scanner `scanSub` replays Python's `re.sub` scan: find the leftmost
match, delete it, continue after it.  All three patterns can only match a
nonempty span, so fuel `length + 1` always suffices. -/

/-- `re.sub` scan: at each position try the matcher; on a match, drop the
matched span and continue after it, otherwise keep the character and move on.
`fuel` only bounds recursion; every matcher used consumes at least one
character, so `l.length + 1` fuel processes all of `l`. -/
def scanSub (m : List Char → Option (List Char)) : Nat → List Char → List Char
  | 0, l => l
  | _ + 1, [] => []
  | fuel + 1, c :: cs =>
    match m (c :: cs) with
    | some rest => scanSub m fuel rest
    | none => c :: scanSub m fuel cs

/-- Pattern `r',?\s*(saft og .*skal.*)'` (case moot: input already lowered)
anchored at the current position: an optional comma, then whitespace, then the
literal `"saft og "`, matching through the end of the line provided `"skal"`
occurs later on the same line (`.` does not cross a newline; the trailing
greedy `.*` extends the match to the line end). -/
def matchSaftAt (l : List Char) : Option (List Char) :=
  let l1 := match l with
    | ',' :: r => r
    | _ => l
  let l2 := l1.dropWhile isSpaceChar
  if listStarts ("saft og ".data) l2 then
    let rest := l2.drop 8
    let lineRest := rest.takeWhile (fun c => !(c == '\n'))
    if listHasSub ("skal".data) lineRest then some (rest.drop lineRest.length)
    else none
  else none

/-- Pattern `r',?\s*(kun saften)'` anchored at the current position. -/
def matchKunAt (l : List Char) : Option (List Char) :=
  let l1 := match l with
    | ',' :: r => r
    | _ => l
  let l2 := l1.dropWhile isSpaceChar
  if listStarts ("kun saften".data) l2 then some (l2.drop 10) else none

/-- Pattern `r'\(.*?\)'` anchored at the current position: an opening
parenthesis, then (non-greedy) anything up to the first closing parenthesis on
the same line. -/
def matchParenAt (l : List Char) : Option (List Char) :=
  match l with
  | '(' :: cs =>
    let seg := cs.takeWhile (fun c => !(c == ')') && !(c == '\n'))
    match cs.drop seg.length with
    | ')' :: r => some r
    | _ => none
  | _ => none

/-- `re.sub(prep_pattern, '', ...)` where
`prep_pattern = r'\b(finthakkede|...)\b'`: since every alternative consists of
word characters only and none is a prefix of another, a match is exactly a
maximal word-character run equal to one of the terms.  The scan therefore
groups maximal word runs (accumulated reversed in `cur`) and deletes a run
when it equals a prep term. -/
def prepFlush (cur : List Char) : List Char :=
  let w := cur.reverse
  if String.mk w ∈ prep_terms then [] else w

def prepSub : List Char → List Char → List Char
  | [], cur => prepFlush cur
  | c :: cs, cur =>
    if isWordChar c then prepSub cs (c :: cur)
    else prepFlush cur ++ c :: prepSub cs []

/-- Regex `[,.-]`. -/
def isPunctChar (c : Char) : Bool := c == ',' || c == '.' || c == '-'

/-- `re.sub(r'[,.-]+$', '', s)`: remove the punctuation run ending at the end
of the string, or just before a single final newline (`$` without MULTILINE
also matches there). -/
def dropTrailingPunct (l : List Char) : List Char :=
  if l.getLast? == some '\n' then rdropRun isPunctChar l.dropLast ++ ['\n']
  else rdropRun isPunctChar l

/-- `re.sub(r'^[,.-]+', '', s)`: `^` anchors at the start only. -/
def dropLeadingPunct (l : List Char) : List Char := l.dropWhile isPunctChar

/-- `re.sub(r'\s+', ' ', s)`: collapse every whitespace run to one space.  The
Boolean records whether the previous character was whitespace. -/
def collapseWsGo : List Char → Bool → List Char
  | [], _ => []
  | c :: cs, inWs =>
    if isSpaceChar c then
      if inWs then collapseWsGo cs true else ' ' :: collapseWsGo cs true
    else c :: collapseWsGo cs false

/-- The final membership / alias / emptiness steps of `clean_ingredient_name`
(`main.py` lines 202-212).  Python's `for core, variations in ...: if
clean_name in variations: return core` returns the first hit, i.e. `find?`. -/
def cleanTail (name : String) : Option String :=
  if name ∈ NON_INGREDIENT_WORDS then none
  else
    match INGREDIENT_CORE_MAPPING.find? (fun p => p.snd.contains name) with
    | some p => some p.fst
    | none => if name = "" then none else some name

def clean_ingredient_name (raw_name : String) : Option String :=
  let s0 := stripChars (lowerChars raw_name.data)
  let s1 := scanSub matchSaftAt (s0.length + 1) s0
  let s2 := scanSub matchKunAt (s1.length + 1) s1
  let s3 := scanSub matchParenAt (s2.length + 1) s2
  let s4 := prepSub s3 []
  let s5 := dropTrailingPunct s4
  let s6 := dropLeadingPunct s5
  let s7 := collapseWsGo s6 false
  let s8 := stripChars s7
  cleanTail (String.mk s8)

/-! ## `parse_ingredient_text` (`main.py` lines 230-272)

The amount regex
`r'^(\d+(?:[.,/]\d+)?(?:\s*-\s*\d+(?:[.,/]\d+)?)?|\?|\d+\s*½|\d+\s*¼|\d+\s*¾|½|¼|¾)'`
is an anchored alternation; Python tries the alternatives left to right and
keeps the first that matches, greedily.  `matchAmount` replays that order
exactly, including the `\d+\s*½`-style alternatives, which are reachable only
if the first (plain number) alternative failed. -/

/-- The optional fragment `(?:[.,/]\d+)?`: returns the matched span (possibly
empty).  The remainder is the input with `(result).length` characters dropped;
a greedy `\d+` after a separator is `takeWhile isDigitChar`, and the fragment
matches only when that digit run is nonempty. -/
def fracStep : List Char → List Char
  | [] => []
  | c :: cs =>
    if c == '.' || c == ',' || c == '/' then
      if cs.takeWhile isDigitChar = [] then [] else c :: cs.takeWhile isDigitChar
    else []

/-- The optional fragment `(?:\s*-\s*\d+(?:[.,/]\d+)?)?`: returns the matched
span (possibly empty).  Greedy `\s*` is `takeWhile isSpaceChar` with remainder
`dropWhile isSpaceChar`. -/
def rangeStep (l : List Char) : List Char :=
  match l.dropWhile isSpaceChar with
  | c :: r2 =>
    if c = '-' then
      if (r2.dropWhile isSpaceChar).takeWhile isDigitChar = [] then []
      else
        l.takeWhile isSpaceChar ++ '-' ::
          (r2.takeWhile isSpaceChar ++
           (r2.dropWhile isSpaceChar).takeWhile isDigitChar ++
           fracStep ((r2.dropWhile isSpaceChar).dropWhile isDigitChar))
    else []
  | [] => []

/-- The input position after the optional `(?:[.,/]\d+)?` fragment. -/
def afterFrac (l1 : List Char) : List Char := l1.drop (fracStep l1).length

/-- First alternative `\d+(?:[.,/]\d+)?(?:\s*-\s*\d+(?:[.,/]\d+)?)?`: a
nonempty greedy digit run, then the optional fraction and range fragments. -/
def matchNumberAlt (l : List Char) : Option (List Char × List Char) :=
  if l.takeWhile isDigitChar = [] then none
  else
    some (l.takeWhile isDigitChar ++ fracStep (l.dropWhile isDigitChar) ++
            rangeStep (afterFrac (l.dropWhile isDigitChar)),
          (afterFrac (l.dropWhile isDigitChar)).drop
            (rangeStep (afterFrac (l.dropWhile isDigitChar))).length)

/-- Alternatives of the form `\d+\s*½` (and `¼`, `¾`). -/
def mixedAlt (g : Char) (l : List Char) : Option (List Char × List Char) :=
  if l.takeWhile isDigitChar = [] then none
  else
    match (l.dropWhile isDigitChar).dropWhile isSpaceChar with
    | c :: r =>
      if c == g then
        some (l.takeWhile isDigitChar ++
                (l.dropWhile isDigitChar).takeWhile isSpaceChar ++ [g], r)
      else none
    | [] => none

/-- `rest` (what follows `"d1/d2 "`) does not continue the amount match with a
range fragment `\s*-\s*\d+`: after optional whitespace there is either no dash
or a dash not followed (after optional whitespace) by a digit. -/
def noRangeAfter (rest : List Char) : Bool :=
  match rest.dropWhile isSpaceChar with
  | c :: r2 =>
    if c = '-' then decide ((r2.dropWhile isSpaceChar).takeWhile isDigitChar = [])
    else true
  | [] => true

/-- The literal alternative `\?`. -/
def qAlt : List Char → Option (List Char × List Char)
  | c :: cs => if c = '?' then some (['?'], cs) else none
  | [] => none

/-- The bare vulgar-fraction alternatives `½`, `¼`, `¾`. -/
def bareGlyphAlt (g : Char) : List Char → Option (List Char × List Char)
  | c :: cs => if c = g then some ([g], cs) else none
  | [] => none

/-- Left-to-right regex alternation: the first alternative that matches wins. -/
def orOpt (a b : Option (List Char × List Char)) : Option (List Char × List Char) :=
  match a with
  | some res => some res
  | none => b

/-- The full anchored amount alternation, alternatives in source order. -/
def matchAmount (l : List Char) : Option (List Char × List Char) :=
  orOpt (matchNumberAlt l)
    (orOpt (qAlt l)
      (orOpt (mixedAlt '½' l)
        (orOpt (mixedAlt '¼' l)
          (orOpt (mixedAlt '¾' l)
            (orOpt (bareGlyphAlt '½' l)
              (orOpt (bareGlyphAlt '¼' l) (bareGlyphAlt '¾' l)))))))

/-- `all_units` sorted by length descending, as
`sorted(all_units, key=len, reverse=True)` produces from
`list(DANISH_UNITS.keys()) + list(DANISH_UNITS.values()) +
list(SPECIAL_DANISH_UNITS)`.  The order among units of equal length depends on
Python's set iteration order, but is irrelevant: two same-length alternatives
cannot both match at the same position (an equal-length prefix match forces
equal strings). -/
def allUnitsByLenDesc : List String :=
  ["milliliter", "centiliter", "deciliter", "håndfulde", "knivspids",
   "spiseske", "kilogram", "håndfuld", "stykker", "bundle", "teske", "pakke",
   "liter", "bundt", "skive", "klump", "spsk", "gram", "dåse", "pind", "pose",
   "neve", "klat", "tsk", "stk", "fed", "pk", "dl", "kg", "ml", "cl", "ds",
   "g", "l"]

/-- `\b` after a unit alternative (all units end in word characters): the next
character is absent or not a word character. -/
def wordBoundaryAfter (l : List Char) : Bool :=
  match l with
  | [] => true
  | c :: _ => !isWordChar c

/-- Case-insensitive anchored match of one (lowercase) unit alternative,
followed by a word boundary. -/
def unitMatchesAt (p l : List Char) : Bool :=
  ((l.take p.length).map pyCharLower == p) && wordBoundaryAfter (l.drop p.length)

/-- The anchored, IGNORECASE unit alternation
`'^(' + '|'.join(sorted(all_units, key=len, reverse=True)) + r')\b'`.
Returns the raw matched slice (original case, as `unit_match.group(1)`) and
the remainder. -/
def matchUnit (l : List Char) : Option (List Char × List Char) :=
  match allUnitsByLenDesc.find? (fun u => unitMatchesAt u.data l) with
  | some u => some (l.take u.data.length, l.drop u.data.length)
  | none => none

/-- Amount extraction step of `parse_ingredient_text`: on a match, the amount
is the matched text and the remainder is stripped; otherwise the amount
defaults to `"?"` with nothing consumed. -/
def amountStep (t : List Char) : String × List Char :=
  match matchAmount t with
  | some (m, r) => (String.mk m, stripChars r)
  | none => ("?", t)

/-- Unit extraction step of `parse_ingredient_text`: on a match, the raw slice
is normalized via `normalize_unit` and the remainder stripped; otherwise the
unit is empty with nothing consumed. -/
def unitStep (r : List Char) : String × List Char :=
  match matchUnit r with
  | some (raw, rest) => (normalize_unit (String.mk raw), stripChars rest)
  | none => ("", r)

def parse_ingredient_text (text : String) : Option Ingredient :=
  if stripChars text.data = [] then none
  else
    match clean_ingredient_name
        (String.mk (unitStep (amountStep (stripChars text.data)).2).2) with
    | none => none
    | some nm =>
      if nm = "" then none
      else some { name := nm,
                  amount := (amountStep (stripChars text.data)).1,
                  unit := (unitStep (amountStep (stripChars text.data)).2).1 }

/-! ## `parse_ingredients_from_text` (`main.py` lines 274-308) -/

/-- The per-line filter: empty after strip, shorter than 3 characters, more
than 10 whitespace tokens, or containing an instruction indicator as a
case-insensitive substring (`main.py` lines 282-289). -/
def discardLine (line : List Char) : Bool :=
  line.isEmpty || decide (line.length < 3) ||
  decide ((splitWs line).length > 10) ||
  instruction_indicators.any (fun ind => listHasSub ind.data (lowerChars line))

/-- The loop body of `parse_ingredients_from_text` for one raw line: strip,
filter, parse; keep only a parse with a nonempty name
(`if parsed and parsed.name`). -/
def lineResult (raw : List Char) : Option Ingredient :=
  if discardLine (stripChars raw) then none
  else
    match parse_ingredient_text (String.mk (stripChars raw)) with
    | some p => if p.name = "" then none else some p
    | none => none

/-- Deduplication key `f"{name.lower()}_{unit.lower()}"` (`main.py` line 301). -/
def dedupKey (i : Ingredient) : String :=
  String.mk (lowerChars i.name.data) ++ "_" ++ String.mk (lowerChars i.unit.data)

/-- The dedup loop with its `seen` set (`main.py` lines 297-307): keep the
first occurrence of each key, in order. -/
def dedupBy : List Ingredient → List String → List Ingredient
  | [], _ => []
  | x :: xs, seen =>
    if dedupKey x ∈ seen then dedupBy xs seen
    else x :: dedupBy xs (dedupKey x :: seen)

/-- The per-line results before deduplication. -/
def preDedup (text : String) : List Ingredient :=
  (splitLines text.data).filterMap lineResult

def parse_ingredients_from_text (text : String) : List Ingredient :=
  dedupBy (preDedup text) []

/-! ## Helper lemmas -/

/-- A successful `List.lookup` comes from a pair of the association list. -/
lemma lookup_pair_mem {α β : Type} [BEq α] [LawfulBEq α] :
    ∀ (l : List (α × β)) (k : α) (v : β), l.lookup k = some v → (k, v) ∈ l := by
  intro l
  induction l with
  | nil => intro k v h; simp [List.lookup] at h
  | cons p ps ih =>
    intro k v h
    obtain ⟨a, b⟩ := p
    rw [List.lookup] at h
    cases hk : k == a with
    | true =>
      simp only [hk] at h
      injection h with h
      have hka : k = a := eq_of_beq hk
      subst hka; subst h
      exact List.mem_cons_self _ _
    | false =>
      simp only [hk] at h
      exact List.mem_cons_of_mem _ (ih k v h)

/-- Every ingredient kept by the dedup loop was among its inputs. -/
lemma dedupBy_sub : ∀ (l : List Ingredient) (seen : List String) (x : Ingredient),
    x ∈ dedupBy l seen → x ∈ l := by
  intro l
  induction l with
  | nil => intro seen x hx; simp [dedupBy] at hx
  | cons a as ih =>
    intro seen x hx
    rw [dedupBy] at hx
    by_cases ha : dedupKey a ∈ seen
    · rw [if_pos ha] at hx
      exact List.mem_cons_of_mem _ (ih _ _ hx)
    · rw [if_neg ha] at hx
      rcases List.mem_cons.mp hx with h | h
      · exact h ▸ List.mem_cons_self _ _
      · exact List.mem_cons_of_mem _ (ih _ _ h)

/-- The final steps of the name cleaner only emit nonempty names outside the
non-ingredient word set. -/
lemma cleanTail_sound (name n : String) (h : cleanTail name = some n) :
    n ≠ "" ∧ n ∉ NON_INGREDIENT_WORDS := by
  rw [cleanTail] at h
  by_cases h1 : name ∈ NON_INGREDIENT_WORDS
  · rw [if_pos h1] at h; simp at h
  · rw [if_neg h1] at h
    cases h2 : INGREDIENT_CORE_MAPPING.find? (fun p => p.snd.contains name) with
    | some p =>
      rw [h2] at h
      have hp := List.mem_of_find?_eq_some h2
      injection h with h
      subst h
      fin_cases hp <;> exact ⟨by decide, by decide⟩
    | none =>
      rw [h2] at h
      by_cases h3 : name = ""
      · rw [if_pos h3] at h; simp at h
      · rw [if_neg h3] at h
        injection h with h
        subst h
        exact ⟨h3, h1⟩

/-- Same soundness, at the level of `clean_ingredient_name`. -/
lemma clean_ingredient_name_sound (r n : String)
    (h : clean_ingredient_name r = some n) :
    n ≠ "" ∧ n ∉ NON_INGREDIENT_WORDS :=
  cleanTail_sound _ _ h

/-- The name of an ingredient produced by `parse_ingredient_text` was emitted
by `clean_ingredient_name`. -/
lemma parse_ingredient_text_name (s : String) (ing : Ingredient)
    (h : parse_ingredient_text s = some ing) :
    ∃ r, clean_ingredient_name r = some ing.name := by
  rw [parse_ingredient_text] at h
  by_cases ht : stripChars s.data = []
  · rw [if_pos ht] at h; simp at h
  · rw [if_neg ht] at h
    cases hc : clean_ingredient_name
        (String.mk (unitStep (amountStep (stripChars s.data)).2).2) with
    | none => rw [hc] at h; simp at h
    | some nm =>
      simp only [hc] at h
      by_cases hnm : nm = ""
      · rw [if_pos hnm] at h; simp at h
      · rw [if_neg hnm] at h
        injection h with h
        subst h
        exact ⟨_, hc⟩

/-- A line kept by the block parser loop body was parsed by
`parse_ingredient_text`. -/
lemma lineResult_some (raw : List Char) (j : Ingredient)
    (h : lineResult raw = some j) :
    parse_ingredient_text (String.mk (stripChars raw)) = some j := by
  rw [lineResult] at h
  by_cases hd : discardLine (stripChars raw)
  · simp [hd] at h
  · simp only [hd, Bool.false_eq_true, if_false] at h
    cases hp : parse_ingredient_text (String.mk (stripChars raw)) with
    | none => rw [hp] at h; simp at h
    | some p =>
      simp only [hp] at h
      by_cases hn : p.name = ""
      · rw [if_pos hn] at h; simp at h
      · rw [if_neg hn] at h
        injection h with h
        subst h
        rfl

/-- The amount field of a successful parse is the first component of
`amountStep` on the stripped line. -/
lemma parse_ingredient_text_amount (s : String) (ing : Ingredient)
    (h : parse_ingredient_text s = some ing) :
    ing.amount = (amountStep (stripChars s.data)).1 := by
  rw [parse_ingredient_text] at h
  by_cases ht : stripChars s.data = []
  · rw [if_pos ht] at h; simp at h
  · rw [if_neg ht] at h
    cases hc : clean_ingredient_name
        (String.mk (unitStep (amountStep (stripChars s.data)).2).2) with
    | none => rw [hc] at h; simp at h
    | some nm =>
      simp only [hc] at h
      by_cases hnm : nm = ""
      · rw [if_pos hnm] at h; simp at h
      · rw [if_neg hnm] at h
        have h2 := Option.some.inj h
        rw [← h2]

/-! ## Claim C1 -/

/-- Claim C1: for every `u` in the special-unit set, `normalize_unit u = u`,
and for any cased variant `U` of such a `u` (a string whose lowercasing is
`u`), `normalize_unit U = U.lower()`; special units are never expanded, the
special-unit check taking priority over standard-unit expansion. -/
theorem special_unit_firewall (u U : String)
    (hu : u ∈ SPECIAL_DANISH_UNITS)
    (hU : String.mk (lowerChars U.data) = u) :
    normalize_unit u = u ∧ normalize_unit U = String.mk (lowerChars U.data) := by
  have key : ∀ v ∈ SPECIAL_DANISH_UNITS,
      stripChars (lowerChars v.data) = v.data ∧ stripChars v.data = v.data ∧ v ≠ "" := by
    decide
  obtain ⟨h1, h2, h3⟩ := key u hu
  have heta : String.mk u.data = u := rfl
  constructor
  · rw [normalize_unit, if_neg h3, h1, heta, if_pos hu]
  · have hdata : lowerChars U.data = u.data := congrArg String.data hU
    have hUne : U ≠ "" := by
      intro hemp
      apply h3
      rw [← hU, hemp]
      rfl
    rw [normalize_unit, if_neg hUne, hdata, h2, heta, if_pos hu]

/-- Witness for C1 at `u = "fed"`, `U = "FED"`. -/
theorem special_unit_firewall_witness :
    normalize_unit "fed" = "fed" ∧
    normalize_unit "FED" = String.mk (lowerChars "FED".data) :=
  special_unit_firewall "fed" "FED" (by decide) (by decide)

/-! ## Claim C2 -/

/-- Claim C2: every ingredient emitted by `parse_ingredient_text` or by
`parse_ingredients_from_text` has a nonempty name that is not a member of the
non-ingredient word set. -/
theorem pipeline_name_invariant (s t : String) (i j : Ingredient)
    (hi : parse_ingredient_text s = some i)
    (hj : j ∈ parse_ingredients_from_text t) :
    (i.name ≠ "" ∧ i.name ∉ NON_INGREDIENT_WORDS) ∧
    (j.name ≠ "" ∧ j.name ∉ NON_INGREDIENT_WORDS) := by
  constructor
  · obtain ⟨r, hr⟩ := parse_ingredient_text_name s i hi
    exact clean_ingredient_name_sound _ _ hr
  · have hj1 : j ∈ preDedup t := dedupBy_sub _ _ _ hj
    obtain ⟨raw, _, hraw⟩ := List.mem_filterMap.mp hj1
    have hp := lineResult_some raw j hraw
    obtain ⟨r, hr⟩ := parse_ingredient_text_name _ j hp
    exact clean_ingredient_name_sound _ _ hr

/-- Witness for C2 at `"6 fed hvidløg"` and the block `"2 dl mælk"`. -/
theorem pipeline_name_invariant_witness :
    ((("hvidløg" : String) ≠ "" ∧ ("hvidløg" : String) ∉ NON_INGREDIENT_WORDS) ∧
     (("mælk" : String) ≠ "" ∧ ("mælk" : String) ∉ NON_INGREDIENT_WORDS)) :=
  pipeline_name_invariant "6 fed hvidløg" "2 dl mælk"
    ⟨"hvidløg", "6", "fed"⟩ ⟨"mælk", "2", "deciliter"⟩ (by decide) (by decide)

/-! ## Claim C3 -/

/-- Claim C3 (code bug): the name cleaner is not idempotent on its own output.
Cleaning `"a , hakket"` removes the preparation word `"hakket"` and yields
`"a ,"` — the trailing-punctuation trim runs before whitespace collapsing and
the final strip, so the comma survives the first pass — and cleaning that
output again yields `"a"`. -/
theorem clean_name_not_idempotent_eval :
    clean_ingredient_name "a , hakket" = some "a ," ∧
    clean_ingredient_name "a ," = some "a" :=
  ⟨rfl, rfl⟩


/-- Characters of a fraction fragment: the separator or digits. -/
lemma fracStep_chars (l : List Char) :
    ∀ a ∈ fracStep l, a = '.' ∨ a = ',' ∨ a = '/' ∨ isDigitChar a = true := by
  cases l with
  | nil => intro a ha; simp [fracStep] at ha
  | cons c cs =>
    intro a ha
    rw [fracStep] at ha
    by_cases hc : (c == '.' || c == ',' || c == '/') = true
    · rw [if_pos hc] at ha
      by_cases hds : cs.takeWhile isDigitChar = []
      · rw [if_pos hds] at ha; simp at ha
      · rw [if_neg hds] at ha
        rcases List.mem_cons.mp ha with h | h
        · subst h
          simp only [Bool.or_eq_true, beq_iff_eq] at hc
          rcases hc with (h | h) | h
          · exact Or.inl h
          · exact Or.inr (Or.inl h)
          · exact Or.inr (Or.inr (Or.inl h))
        · exact Or.inr (Or.inr (Or.inr (List.mem_takeWhile_imp h)))
    · rw [if_neg hc] at ha; simp at ha

lemma fracStep_no_half (l : List Char) : '½' ∉ fracStep l := by
  intro h
  rcases fracStep_chars l '½' h with h1 | h1 | h1 | h1 <;> exact absurd h1 (by decide)

lemma rangeStep_no_half (l : List Char) : '½' ∉ rangeStep l := by
  rw [rangeStep]
  cases hc : l.dropWhile isSpaceChar with
  | nil => simp
  | cons c r2 =>
    show '½' ∉ (if c = '-' then
        if (r2.dropWhile isSpaceChar).takeWhile isDigitChar = [] then []
        else
          l.takeWhile isSpaceChar ++ '-' ::
            (r2.takeWhile isSpaceChar ++
             (r2.dropWhile isSpaceChar).takeWhile isDigitChar ++
             fracStep ((r2.dropWhile isSpaceChar).dropWhile isDigitChar))
      else [])
    by_cases hdash : c = '-'
    · subst hdash
      rw [if_pos (show ('-' : Char) = '-' from rfl)]
      by_cases hds : (r2.dropWhile isSpaceChar).takeWhile isDigitChar = []
      · rw [if_pos hds]; simp
      · rw [if_neg hds]
        intro hmem
        rcases List.mem_append.mp hmem with h | h
        · exact absurd (List.mem_takeWhile_imp h) (by decide)
        · rcases List.mem_cons.mp h with h | h
          · exact absurd h (by decide)
          · rcases List.mem_append.mp h with h | h
            · rcases List.mem_append.mp h with h | h
              · exact absurd (List.mem_takeWhile_imp h) (by decide)
              · exact absurd (List.mem_takeWhile_imp h) (by decide)
            · exact fracStep_no_half _ h
    · rw [if_neg hdash]; simp

lemma matchNumberAlt_no_half (l m r : List Char)
    (h : matchNumberAlt l = some (m, r)) : '½' ∉ m := by
  rw [matchNumberAlt] at h
  by_cases hds : l.takeWhile isDigitChar = []
  · rw [if_pos hds] at h; simp at h
  · rw [if_neg hds] at h
    have h2 := Option.some.inj h
    have hm : m = l.takeWhile isDigitChar ++ fracStep (l.dropWhile isDigitChar) ++
        rangeStep (afterFrac (l.dropWhile isDigitChar)) := (congrArg Prod.fst h2).symm
    rw [hm]
    intro hmem
    rcases List.mem_append.mp hmem with h3 | h3
    · rcases List.mem_append.mp h3 with h4 | h4
      · exact absurd (List.mem_takeWhile_imp h4) (by decide)
      · exact fracStep_no_half _ h4
    · exact rangeStep_no_half _ h3

lemma qAlt_shape (l m r : List Char) (h : qAlt l = some (m, r)) : m = ['?'] := by
  cases l with
  | nil => simp [qAlt] at h
  | cons c cs =>
    rw [qAlt] at h
    by_cases hc : c = '?'
    · rw [if_pos hc] at h
      exact (congrArg Prod.fst (Option.some.inj h)).symm
    · rw [if_neg hc] at h; simp at h

lemma bareGlyphAlt_shape (g : Char) (l m r : List Char)
    (h : bareGlyphAlt g l = some (m, r)) : m = [g] := by
  cases l with
  | nil => simp [bareGlyphAlt] at h
  | cons c cs =>
    rw [bareGlyphAlt] at h
    by_cases hc : c = g
    · rw [if_pos hc] at h
      exact (congrArg Prod.fst (Option.some.inj h)).symm
    · rw [if_neg hc] at h; simp at h

/-- No alternative of the amount alternation can ever yield the mixed string
`"1 ½"`: the first alternative contains no fraction glyph, and the mixed
alternatives `\d+\s*½`-style are only tried when the first alternative failed,
i.e. when the line does not start with a digit — in which case they fail too. -/
lemma matchAmount_no_mixed (l m r : List Char)
    (h : matchAmount l = some (m, r)) : m ≠ '1' :: ' ' :: '½' :: [] := by
  intro hm
  subst hm
  rw [matchAmount] at h
  cases hnum : matchNumberAlt l with
  | some res =>
    rw [hnum] at h
    have h2 : some res = some (('1' :: ' ' :: '½' :: [], r) :
        List Char × List Char) := h
    obtain ⟨rm, rr⟩ := res
    have h3 := Option.some.inj h2
    have hhalf := matchNumberAlt_no_half l rm rr hnum
    have h4 : rm = '1' :: ' ' :: '½' :: [] := congrArg Prod.fst h3
    rw [h4] at hhalf
    exact hhalf (by decide)
  | none =>
    rw [hnum] at h
    have hds : l.takeWhile isDigitChar = [] := by
      by_contra hne
      rw [matchNumberAlt, if_neg hne] at hnum
      simp at hnum
    have hmix : ∀ g, mixedAlt g l = none := by
      intro g
      rw [mixedAlt, if_pos hds]
    cases hq : qAlt l with
    | some resq =>
      obtain ⟨qm, qr⟩ := resq
      rw [hq] at h
      have h2 : some (qm, qr) = some (('1' :: ' ' :: '½' :: [], r) :
          List Char × List Char) := h
      have h3 := congrArg Prod.fst (Option.some.inj h2)
      rw [qAlt_shape l qm qr hq] at h3
      simp at h3
    | none =>
      rw [hq, hmix '½', hmix '¼', hmix '¾'] at h
      cases hg : bareGlyphAlt '½' l with
      | some resg =>
        obtain ⟨gm, gr⟩ := resg
        rw [hg] at h
        have h2 : some (gm, gr) = some (('1' :: ' ' :: '½' :: [], r) :
            List Char × List Char) := h
        have h3 := congrArg Prod.fst (Option.some.inj h2)
        rw [bareGlyphAlt_shape '½' l gm gr hg] at h3
        simp at h3
      | none =>
        rw [hg] at h
        cases hg2 : bareGlyphAlt '¼' l with
        | some resg =>
          obtain ⟨gm, gr⟩ := resg
          rw [hg2] at h
          have h2 : some (gm, gr) = some (('1' :: ' ' :: '½' :: [], r) :
              List Char × List Char) := h
          have h3 := congrArg Prod.fst (Option.some.inj h2)
          rw [bareGlyphAlt_shape '¼' l gm gr hg2] at h3
          simp at h3
        | none =>
          rw [hg2] at h
          have h2 : bareGlyphAlt '¾' l = some ('1' :: ' ' :: '½' :: [], r) := h
          have h3 := bareGlyphAlt_shape '¾' l _ _ h2
          simp at h3

/-! ## Claim C4 -/

/-- Claim C4 (code bug): the mixed amount form is not producible.  No parsed
ingredient ever carries the amount `"1 ½"` — the plain-number alternative of
the amount regex matches first on any digit-leading line, so the
`\d+\s*½`-style alternatives are unreachable — and on the claim's own example
`"1 ½ citron"` the parser returns amount `"1"` with the fraction glyph left in
the name. -/
theorem mixed_amount_not_produced (s : String) (ing : Ingredient)
    (h : parse_ingredient_text s = some ing) :
    ing.amount ≠ "1 ½" ∧
    parse_ingredient_text "1 ½ citron" = some ⟨"½ citron", "1", ""⟩ := by
  refine ⟨?_, rfl⟩
  rw [parse_ingredient_text_amount s ing h]
  cases hA : matchAmount (stripChars s.data) with
  | none =>
    intro hc
    rw [amountStep, hA] at hc
    have hc2 : ("?" : String) = "1 ½" := hc
    exact absurd hc2 (by decide)
  | some res =>
    obtain ⟨m, r⟩ := res
    intro hc
    rw [amountStep, hA] at hc
    have hm : m = '1' :: ' ' :: '½' :: [] := congrArg String.data hc
    exact matchAmount_no_mixed _ _ _ hA hm

/-- Witness for C4 at the line `"1 ½ citron"`. -/
theorem mixed_amount_not_produced_witness :
    (Ingredient.mk "½ citron" "1" "").amount ≠ "1 ½" ∧
    parse_ingredient_text "1 ½ citron" = some ⟨"½ citron", "1", ""⟩ :=
  mixed_amount_not_produced "1 ½ citron" ⟨"½ citron", "1", ""⟩ rfl

/-! ## Claim C5 -/

/-- Claim C5: `parse_ingredient_text "6 fed hvidløg"` is exactly the
ingredient with name `"hvidløg"`, amount `"6"` and unit `"fed"`, the special
unit preserved verbatim. -/
theorem parse_six_fed_hvidloeg :
    parse_ingredient_text "6 fed hvidløg" = some ⟨"hvidløg", "6", "fed"⟩ :=
  rfl

/-! ## Claim C7 -/

/-- Claim C7: a line that is empty after trimming, shorter than 3 characters,
has more than 10 whitespace tokens, or contains an instruction indicator as a
case-insensitive substring contributes no ingredient; in particular the block
`"bland mel og sukker i en skål sammen med salt"` produces none. -/
theorem instruction_line_yields_nothing (raw : List Char)
    (h : stripChars raw = [] ∨ (stripChars raw).length < 3 ∨
         (splitWs (stripChars raw)).length > 10 ∨
         ∃ ind ∈ instruction_indicators,
           listHasSub ind.data (lowerChars (stripChars raw)) = true) :
    lineResult raw = none ∧
    parse_ingredients_from_text "bland mel og sukker i en skål sammen med salt" = [] := by
  refine ⟨?_, rfl⟩
  have hd : discardLine (stripChars raw) = true := by
    rw [discardLine]
    rcases h with h | h | h | ⟨ind, hi, hs⟩
    · simp [h]
    · simp [h]
    · simp [h]
    · have : instruction_indicators.any
          (fun ind => listHasSub ind.data (lowerChars (stripChars raw))) = true :=
        List.any_eq_true.mpr ⟨ind, hi, hs⟩
      simp [this]
  rw [lineResult, hd]
  rfl

/-- Witness for C7 at the claim's example line. -/
theorem instruction_line_yields_nothing_witness :
    lineResult ("bland mel og sukker i en skål sammen med salt".data) = none :=
  (instruction_line_yields_nothing _ (by decide)).1

/-! ## Claim C6: deduplication -/

/-- No ingredient kept by the dedup loop has a key recorded in `seen`. -/
lemma dedupBy_not_seen : ∀ (l : List Ingredient) (seen : List String) (x : Ingredient),
    x ∈ dedupBy l seen → dedupKey x ∉ seen := by
  intro l
  induction l with
  | nil => intro seen x hx; simp [dedupBy] at hx
  | cons a as ih =>
    intro seen x hx
    rw [dedupBy] at hx
    by_cases ha : dedupKey a ∈ seen
    · rw [if_pos ha] at hx
      exact ih _ _ hx
    · rw [if_neg ha] at hx
      rcases List.mem_cons.mp hx with h | h
      · subst h; exact ha
      · intro hs
        exact ih _ _ h (List.mem_cons_of_mem _ hs)

/-- The dedup loop emits pairwise distinct keys. -/
lemma dedupBy_pairwise : ∀ (l : List Ingredient) (seen : List String),
    (dedupBy l seen).Pairwise (fun a b => dedupKey a ≠ dedupKey b) := by
  intro l
  induction l with
  | nil => intro seen; simp [dedupBy]
  | cons a as ih =>
    intro seen
    rw [dedupBy]
    by_cases ha : dedupKey a ∈ seen
    · rw [if_pos ha]; exact ih _
    · rw [if_neg ha]
      refine List.pairwise_cons.mpr ⟨?_, ih _⟩
      intro b hb hab
      exact dedupBy_not_seen _ _ _ hb (hab ▸ List.mem_cons_self _ _)

/-- The dedup loop output is a sublist of its input (original order kept). -/
lemma dedupBy_sublist : ∀ (l : List Ingredient) (seen : List String),
    (dedupBy l seen).Sublist l := by
  intro l
  induction l with
  | nil => intro seen; simp [dedupBy]
  | cons a as ih =>
    intro seen
    rw [dedupBy]
    by_cases ha : dedupKey a ∈ seen
    · rw [if_pos ha]; exact (ih _).cons a
    · rw [if_neg ha]; exact (ih _).cons₂ a

/-- For an input whose key is not yet seen, the first input with that key is
kept by the dedup loop. -/
lemma dedupBy_find : ∀ (l : List Ingredient) (seen : List String) (x : Ingredient),
    x ∈ l → dedupKey x ∉ seen →
    ∃ y, l.find? (fun z => dedupKey z == dedupKey x) = some y ∧ y ∈ dedupBy l seen := by
  intro l
  induction l with
  | nil => intro seen x hx; simp at hx
  | cons a as ih =>
    intro seen x hx hseen
    cases hbeq : (dedupKey a == dedupKey x) with
    | true =>
      refine ⟨a, List.find?_cons_of_pos _ hbeq, ?_⟩
      have hkey : dedupKey a = dedupKey x := eq_of_beq hbeq
      rw [dedupBy, if_neg (hkey ▸ hseen)]
      exact List.mem_cons_self _ _
    | false =>
      have hxas : x ∈ as := by
        rcases List.mem_cons.mp hx with h | h
        · subst h; simp at hbeq
        · exact h
      rw [dedupBy]
      by_cases ha : dedupKey a ∈ seen
      · rw [if_pos ha]
        obtain ⟨y, hf, hy⟩ := ih seen x hxas hseen
        exact ⟨y, by rw [List.find?_cons_of_neg _ (by simp [hbeq]), hf], hy⟩
      · rw [if_neg ha]
        have hseen2 : dedupKey x ∉ dedupKey a :: seen := by
          intro hmem
          rcases List.mem_cons.mp hmem with h | h
          · rw [h] at hbeq; simp at hbeq
          · exact hseen h
        obtain ⟨y, hf, hy⟩ := ih (dedupKey a :: seen) x hxas hseen2
        exact ⟨y, by rw [List.find?_cons_of_neg _ (by simp [hbeq]), hf],
               List.mem_cons_of_mem _ hy⟩

/-- Claim C6: `parse_ingredients_from_text` deduplicates by the key
`lowercased(name) ++ "_" ++ lowercased(unit)`: no two outputs share a key, the
output is an order-preserving sublist of the pre-dedup parses, the first parse
carrying each key is kept, and a block containing `"2 dl mælk"` twice yields
exactly one ingredient. -/
theorem block_dedup_by_key (text : String) (x : Ingredient)
    (hx : x ∈ preDedup text) :
    (parse_ingredients_from_text text).Pairwise (fun a b => dedupKey a ≠ dedupKey b) ∧
    (parse_ingredients_from_text text).Sublist (preDedup text) ∧
    (∃ y, (preDedup text).find? (fun z => dedupKey z == dedupKey x) = some y ∧
          y ∈ parse_ingredients_from_text text) ∧
    parse_ingredients_from_text "2 dl mælk\n2 dl mælk" = [⟨"mælk", "2", "deciliter"⟩] := by
  refine ⟨dedupBy_pairwise _ _, dedupBy_sublist _ _, ?_, rfl⟩
  exact dedupBy_find _ [] x hx (by simp)

/-- Witness for C6 at the duplicated block `"2 dl mælk\n2 dl mælk"`. -/
theorem block_dedup_by_key_witness :
    (parse_ingredients_from_text "2 dl mælk\n2 dl mælk").Pairwise
      (fun a b => dedupKey a ≠ dedupKey b) ∧
    (parse_ingredients_from_text "2 dl mælk\n2 dl mælk").Sublist
      (preDedup "2 dl mælk\n2 dl mælk") ∧
    (∃ y, (preDedup "2 dl mælk\n2 dl mælk").find?
            (fun z => dedupKey z == dedupKey ⟨"mælk", "2", "deciliter"⟩) = some y ∧
          y ∈ parse_ingredients_from_text "2 dl mælk\n2 dl mælk") ∧
    parse_ingredients_from_text "2 dl mælk\n2 dl mælk" = [⟨"mælk", "2", "deciliter"⟩] :=
  block_dedup_by_key "2 dl mælk\n2 dl mælk" ⟨"mælk", "2", "deciliter"⟩ (by decide)

/-! ## Claim C8: corrections take precedence over unit expansion -/

/-- No correction key is a standard-unit abbreviation. -/
lemma corr_key_not_unit (s c : String)
    (h : DANISH_CORRECTIONS.lookup s = some c) :
    DANISH_UNITS.lookup s = none := by
  have hm := lookup_pair_mem _ _ _ h
  have hs : s ∈ DANISH_CORRECTIONS.map Prod.fst :=
    List.mem_map.mpr ⟨(s, c), hm, rfl⟩
  fin_cases hs <;> rfl

/-- Claim C8: in the text normalizer, each whitespace token is looked up
literally and wholly; a token matching a correction key becomes the corrected
spelling with no unit expansion applied to it, and unit expansion applies only
to tokens matching no correction key.  (In the source both `if`s are keyed on
the original token, so the equality below holds because no token can match
both tables.)  The second conjunct records that `clean_danish_text` is exactly
this per-token map over the whitespace-split, lowercased, stripped input. -/
theorem corrections_before_units :
    (∀ w : List Char, normTokenCdt w =
      (match DANISH_CORRECTIONS.lookup (String.mk w) with
       | some c => c.data
       | none =>
         match DANISH_UNITS.lookup (String.mk w) with
         | some uu => uu.data
         | none => w)) ∧
    (∀ text : String, clean_danish_text text =
      String.mk (joinSpace ((splitWs (stripChars (lowerChars text.data))).map normTokenCdt))) := by
  constructor
  · intro w
    cases h1 : DANISH_CORRECTIONS.lookup (String.mk w) with
    | none =>
      cases h2 : DANISH_UNITS.lookup (String.mk w) with
      | none => simp [normTokenCdt, h1, h2]
      | some uu => simp [normTokenCdt, h1, h2]
    | some c =>
      have h2 : DANISH_UNITS.lookup (String.mk w) = none := corr_key_not_unit _ _ h1
      simp [normTokenCdt, h1, h2]
  · intro text
    rfl

/-! ## Claim C9: `normalize_unit` is idempotent -/

lemma pyCharLower_idem (c : Char) : pyCharLower (pyCharLower c) = pyCharLower c := by
  cases h : upperLowerTable.find? (fun p => p.fst == c) with
  | none =>
    have h0 : pyCharLower c = c := by rw [pyCharLower, h]
    rw [h0]; exact h0
  | some p =>
    have h0 : pyCharLower c = p.snd := by rw [pyCharLower, h]
    rw [h0]
    have hp := List.mem_of_find?_eq_some h
    fin_cases hp <;> rfl

lemma isSpace_pyCharLower (c : Char) : isSpaceChar (pyCharLower c) = isSpaceChar c := by
  cases h : upperLowerTable.find? (fun p => p.fst == c) with
  | none => rw [pyCharLower, h]
  | some p =>
    rw [pyCharLower, h]
    have hc : p.fst = c := eq_of_beq (by simpa using List.find?_some h)
    rw [← hc]
    have hp := List.mem_of_find?_eq_some h
    fin_cases hp <;> rfl

lemma lowerChars_idem (l : List Char) : lowerChars (lowerChars l) = lowerChars l := by
  induction l with
  | nil => rfl
  | cons c cs ih =>
    simp only [lowerChars, List.map_cons] at ih ⊢
    rw [pyCharLower_idem c, ih]

lemma dropWhile_dropWhile (p : Char → Bool) (l : List Char) :
    (l.dropWhile p).dropWhile p = l.dropWhile p := by
  induction l with
  | nil => rfl
  | cons c cs ih =>
    rw [List.dropWhile_cons]
    by_cases h : p c
    · rw [if_pos h]; exact ih
    · rw [if_neg h, List.dropWhile_cons, if_neg h]

lemma dropWhile_length_le (p : Char → Bool) :
    ∀ l : List Char, (l.dropWhile p).length ≤ l.length := by
  intro l
  induction l with
  | nil => exact Nat.le_refl _
  | cons c cs ih =>
    rw [List.dropWhile_cons]
    by_cases h : p c
    · rw [if_pos h]; exact Nat.le_trans ih (Nat.le_succ _)
    · rw [if_neg h]

/-- A list unchanged by `dropWhile p` stays unchanged after a right-strip. -/
lemma dropWhile_rdropRun (p : Char → Bool) (l : List Char)
    (h : l.dropWhile p = l) : (rdropRun p l).dropWhile p = rdropRun p l := by
  cases l with
  | nil => rfl
  | cons c cs =>
    have hc : p c = false := by
      cases hpc : p c with
      | false => rfl
      | true =>
        rw [List.dropWhile_cons, if_pos hpc] at h
        have hlen := congrArg List.length h
        have hle := dropWhile_length_le p cs
        simp at hlen
        omega
    cases hr : rdropRun p cs with
    | nil =>
      simp only [rdropRun, hr]
      rw [if_neg (by simp [hc]), List.dropWhile_cons, if_neg (by simp [hc])]
    | cons d ds =>
      simp only [rdropRun, hr]
      rw [List.dropWhile_cons, if_neg (by simp [hc])]

lemma rdropRun_idem (p : Char → Bool) (l : List Char) :
    rdropRun p (rdropRun p l) = rdropRun p l := by
  induction l with
  | nil => rfl
  | cons c cs ih =>
    cases hr : rdropRun p cs with
    | nil =>
      simp only [rdropRun, hr]
      by_cases hc : p c
      · rw [if_pos hc]; rfl
      · rw [if_neg hc]; simp [rdropRun, hc]
    | cons d ds =>
      rw [hr] at ih
      have houter : rdropRun p (c :: cs) = c :: d :: ds := by
        show (match rdropRun p cs with
              | [] => if p c then [] else [c]
              | r => c :: r) = c :: d :: ds
        rw [hr]
      rw [houter]
      show (match rdropRun p (d :: ds) with
            | [] => if p c then [] else [c]
            | r => c :: r) = c :: d :: ds
      rw [ih]

lemma stripChars_idem (l : List Char) : stripChars (stripChars l) = stripChars l := by
  rw [stripChars, stripChars,
      dropWhile_rdropRun _ _ (dropWhile_dropWhile isSpaceChar l), rdropRun_idem]

lemma dropWhile_lowerChars (l : List Char) :
    (lowerChars l).dropWhile isSpaceChar = lowerChars (l.dropWhile isSpaceChar) := by
  induction l with
  | nil => rfl
  | cons c cs ih =>
    simp only [lowerChars, List.map_cons, List.dropWhile_cons, isSpace_pyCharLower c]
    by_cases h : isSpaceChar c
    · rw [if_pos h, if_pos h]
      simpa [lowerChars] using ih
    · rw [if_neg h, if_neg h]
      rfl

lemma rdropRun_lowerChars (l : List Char) :
    rdropRun isSpaceChar (lowerChars l) = lowerChars (rdropRun isSpaceChar l) := by
  induction l with
  | nil => rfl
  | cons c cs ih =>
    simp only [lowerChars, List.map_cons] at ih ⊢
    cases hr : rdropRun isSpaceChar (cs.map pyCharLower) with
    | nil =>
      rw [hr] at ih
      have hr2 : rdropRun isSpaceChar cs = [] := by
        cases h2 : rdropRun isSpaceChar cs with
        | nil => rfl
        | cons d ds => rw [h2] at ih; simp at ih
      simp only [rdropRun, hr, hr2, List.map_nil]
      rw [isSpace_pyCharLower c]
      by_cases h : isSpaceChar c
      · rw [if_pos h, if_pos h]; rfl
      · rw [if_neg h, if_neg h]; rfl
    | cons d ds =>
      rw [hr] at ih
      have hr2 : rdropRun isSpaceChar cs ≠ [] := by
        intro h2
        rw [h2] at ih; simp at ih
      cases h2 : rdropRun isSpaceChar cs with
      | nil => exact absurd h2 hr2
      | cons e es =>
        rw [h2] at ih
        simp only [rdropRun, hr, h2, List.map_cons]
        rw [ih]
        rfl

lemma stripChars_lowerChars (l : List Char) :
    stripChars (lowerChars l) = lowerChars (stripChars l) := by
  rw [stripChars, stripChars, dropWhile_lowerChars, rdropRun_lowerChars]

/-- `unit.lower().strip()` is a closure operator: applying it to its own
output changes nothing. -/
lemma lowstrip_idem (l : List Char) :
    stripChars (lowerChars (stripChars (lowerChars l))) = stripChars (lowerChars l) := by
  have h1 : lowerChars (stripChars (lowerChars l)) = stripChars (lowerChars l) := by
    rw [← stripChars_lowerChars, lowerChars_idem]
  rw [h1, stripChars_idem]

/-- Expansion values of the standard-unit table are fixed points of
`normalize_unit` (no expansion is itself an abbreviation key). -/
lemma unit_value_fixed (k e : String) (h : DANISH_UNITS.lookup k = some e) :
    normalize_unit e = e := by
  have hm := lookup_pair_mem _ _ _ h
  have he : e ∈ DANISH_UNITS.map Prod.snd := List.mem_map.mpr ⟨(k, e), hm, rfl⟩
  fin_cases he <;> rfl

lemma normalize_unit_special_mk (X : List Char)
    (hfix : stripChars (lowerChars X) = X)
    (h1 : String.mk X ∈ SPECIAL_DANISH_UNITS) :
    normalize_unit (String.mk X) = String.mk X := by
  have h0 : String.mk X ≠ "" := by
    intro hc
    rw [hc] at h1
    exact absurd h1 (by decide)
  have hd : (String.mk X).data = X := rfl
  rw [normalize_unit, if_neg h0, hd, hfix, if_pos h1]

lemma normalize_unit_mk_fixed (X : List Char)
    (hfix : stripChars (lowerChars X) = X)
    (hne : X ≠ [])
    (h1 : String.mk X ∉ SPECIAL_DANISH_UNITS)
    (h2 : DANISH_UNITS.lookup (String.mk X) = none) :
    normalize_unit (String.mk X) = String.mk X := by
  have h0 : String.mk X ≠ "" := by
    intro hc
    exact hne (congrArg String.data hc)
  have hd : (String.mk X).data = X := rfl
  rw [normalize_unit, if_neg h0, hd, hfix, if_neg h1, h2]

/-- Claim C9: `normalize_unit` is idempotent — lowering and stripping are
closure operators, special units are returned as themselves, unknown units
pass through in already-normal form, and no expansion value of the
standard-unit table is itself an abbreviation key. -/
theorem normalize_unit_idem (u : String) :
    normalize_unit (normalize_unit u) = normalize_unit u := by
  by_cases h0 : u = ""
  · subst h0; rfl
  · have hfix := lowstrip_idem u.data
    by_cases h1 : String.mk (stripChars (lowerChars u.data)) ∈ SPECIAL_DANISH_UNITS
    · have hu : normalize_unit u = String.mk (stripChars (lowerChars u.data)) := by
        rw [normalize_unit, if_neg h0, if_pos h1]
      rw [hu]
      exact normalize_unit_special_mk _ hfix h1
    · cases h2 : DANISH_UNITS.lookup (String.mk (stripChars (lowerChars u.data))) with
      | some e =>
        have hu : normalize_unit u = e := by
          rw [normalize_unit, if_neg h0, if_neg h1, h2]
        rw [hu]
        exact unit_value_fixed _ _ h2
      | none =>
        have hu : normalize_unit u = String.mk (stripChars (lowerChars u.data)) := by
          rw [normalize_unit, if_neg h0, if_neg h1, h2]
        rw [hu]
        by_cases hne : stripChars (lowerChars u.data) = []
        · rw [hne]; rfl
        · exact normalize_unit_mk_fixed _ hfix hne h1 h2

/-! ## Claim C10: ASCII slash fractions -/

lemma takeWhile_all (p : Char → Bool) :
    ∀ X : List Char, (∀ a ∈ X, p a = true) → X.takeWhile p = X := by
  intro X
  induction X with
  | nil => intro _; rfl
  | cons c cs ih =>
    intro h
    rw [List.takeWhile_cons, if_pos (h c (List.mem_cons_self _ _)),
        ih (fun a ha => h a (List.mem_cons_of_mem _ ha))]

lemma digit_not_space (c : Char) (h : isDigitChar c = true) : isSpaceChar c = false := by
  cases hsp : isSpaceChar c with
  | false => rfl
  | true =>
    exfalso
    simp only [isSpaceChar, Bool.or_eq_true, beq_iff_eq] at hsp
    rcases hsp with ((((h1 | h1) | h1) | h1) | h1) | h1 <;>
      (subst h1; exact absurd h (by decide))

/-- A right-strip of a list with no character satisfying `p` is the identity. -/
lemma rdropRun_of_no (p : Char → Bool) (X : List Char)
    (h : ∀ c ∈ X, p c = false) : rdropRun p X = X := by
  induction X with
  | nil => rfl
  | cons c cs ih =>
    have ih2 : rdropRun p cs = cs := ih (fun a ha => h a (List.mem_cons_of_mem _ ha))
    show (match rdropRun p cs with
          | [] => if p c then [] else [c]
          | r => c :: r) = c :: cs
    rw [ih2]
    cases cs with
    | nil => simp [h c (List.mem_cons_self _ _)]
    | cons d ds => rfl

/-- Splitting a right-strip across an append. -/
lemma rdropRun_append_full (p : Char → Bool) (A B : List Char) :
    rdropRun p (A ++ B) =
      if rdropRun p B = [] then rdropRun p A else A ++ rdropRun p B := by
  induction A with
  | nil =>
    by_cases hB : rdropRun p B = []
    · simp [hB, rdropRun]
    · simp [hB, rdropRun]
  | cons c A2 ih =>
    show (match rdropRun p (A2 ++ B) with
          | [] => if p c then [] else [c]
          | r => c :: r) =
      if rdropRun p B = [] then rdropRun p (c :: A2) else (c :: A2) ++ rdropRun p B
    rw [ih]
    by_cases hB : rdropRun p B = []
    · rw [if_pos hB, if_pos hB]
      rfl
    · rw [if_neg hB, if_neg hB]
      cases hAB : A2 ++ rdropRun p B with
      | nil => exact absurd (List.append_eq_nil.mp hAB).2 hB
      | cons e es => rw [List.cons_append, hAB]

/-- Unfolding `noRangeAfter` when the text after the whitespace starts with a
dash. -/
lemma noRangeAfter_spec (rest r2 : List Char)
    (hcase : rest.dropWhile isSpaceChar = '-' :: r2)
    (h5 : noRangeAfter rest = true) :
    (r2.dropWhile isSpaceChar).takeWhile isDigitChar = [] := by
  unfold noRangeAfter at h5
  rw [hcase] at h5
  have h5b : (if ('-' : Char) = '-' then
      decide ((r2.dropWhile isSpaceChar).takeWhile isDigitChar = [])
    else true) = true := h5
  rw [if_pos (show ('-' : Char) = '-' from rfl)] at h5b
  exact of_decide_eq_true h5b

/-- The amount alternation on a line `d1/d2 rest` (nonempty digit runs `d1`,
`d2`, no range continuation in `rest`): the first alternative matches exactly
the slash fraction `d1/d2`. -/
lemma slash_amount_match (d1 d2 rest : List Char)
    (h1 : d1 ≠ []) (h2 : ∀ a ∈ d1, isDigitChar a = true)
    (h3 : d2 ≠ []) (h4 : ∀ a ∈ d2, isDigitChar a = true)
    (h5 : noRangeAfter rest = true) :
    matchAmount (d1 ++ '/' :: (d2 ++ ' ' :: rest)) =
      some (d1 ++ '/' :: d2, ' ' :: rest) := by
  have hsl : isDigitChar '/' = false := rfl
  have hds : (d1 ++ '/' :: (d2 ++ ' ' :: rest)).takeWhile isDigitChar = d1 := by
    rw [List.takeWhile_append_of_pos h2, List.takeWhile_cons, hsl]
    simp
  have hdw : (d1 ++ '/' :: (d2 ++ ' ' :: rest)).dropWhile isDigitChar =
      '/' :: (d2 ++ ' ' :: rest) := by
    rw [List.dropWhile_append_of_pos h2, List.dropWhile_cons, hsl]
    simp
  have htw2 : (d2 ++ ' ' :: rest).takeWhile isDigitChar = d2 := by
    rw [List.takeWhile_append_of_pos h4, List.takeWhile_cons,
        show isDigitChar ' ' = false from rfl]
    simp
  have hfr : fracStep ('/' :: (d2 ++ ' ' :: rest)) = '/' :: d2 := by
    show (if ('/' == '.' || '/' == ',' || '/' == '/') = true then
            if (d2 ++ ' ' :: rest).takeWhile isDigitChar = [] then []
            else '/' :: (d2 ++ ' ' :: rest).takeWhile isDigitChar
          else []) = '/' :: d2
    rw [if_pos (show ('/' == '.' || '/' == ',' || '/' == '/') = true from rfl),
        htw2, if_neg h3]
  have hafter : afterFrac ('/' :: (d2 ++ ' ' :: rest)) = ' ' :: rest := by
    rw [afterFrac, hfr]
    show (('/' :: d2) ++ (' ' :: rest)).drop ('/' :: d2).length = ' ' :: rest
    exact List.drop_left _ _
  have hdwsp : (' ' :: rest).dropWhile isSpaceChar = rest.dropWhile isSpaceChar := by
    rw [List.dropWhile_cons, show isSpaceChar ' ' = true from rfl]
    simp
  have hrg : rangeStep (' ' :: rest) = [] := by
    rw [rangeStep, hdwsp]
    cases hcase : rest.dropWhile isSpaceChar with
    | nil => rfl
    | cons c r2 =>
      show (if c = '-' then
              if (r2.dropWhile isSpaceChar).takeWhile isDigitChar = [] then []
              else (' ' :: rest).takeWhile isSpaceChar ++ '-' ::
                (r2.takeWhile isSpaceChar ++
                 (r2.dropWhile isSpaceChar).takeWhile isDigitChar ++
                 fracStep ((r2.dropWhile isSpaceChar).dropWhile isDigitChar))
            else []) = []
      by_cases hc : c = '-'
      · subst hc
        rw [if_pos (show ('-' : Char) = '-' from rfl),
            if_pos (noRangeAfter_spec rest r2 hcase h5)]
      · rw [if_neg hc]
  have hnum : matchNumberAlt (d1 ++ '/' :: (d2 ++ ' ' :: rest)) =
      some (d1 ++ '/' :: d2, ' ' :: rest) := by
    rw [matchNumberAlt, hds, hdw, if_neg h1, hfr, hafter, hrg]
    simp
  rw [matchAmount, hnum]
  rfl

/-- The same match on `d1/d2` at the very end of the line. -/
lemma slash_amount_match_nil (d1 d2 : List Char)
    (h1 : d1 ≠ []) (h2 : ∀ a ∈ d1, isDigitChar a = true)
    (h3 : d2 ≠ []) (h4 : ∀ a ∈ d2, isDigitChar a = true) :
    matchAmount (d1 ++ '/' :: d2) = some (d1 ++ '/' :: d2, []) := by
  have hsl : isDigitChar '/' = false := rfl
  have hds : (d1 ++ '/' :: d2).takeWhile isDigitChar = d1 := by
    rw [List.takeWhile_append_of_pos h2, List.takeWhile_cons, hsl]
    simp
  have hdw : (d1 ++ '/' :: d2).dropWhile isDigitChar = '/' :: d2 := by
    rw [List.dropWhile_append_of_pos h2, List.dropWhile_cons, hsl]
    simp
  have htw2 : d2.takeWhile isDigitChar = d2 := takeWhile_all _ _ h4
  have hfr : fracStep ('/' :: d2) = '/' :: d2 := by
    show (if ('/' == '.' || '/' == ',' || '/' == '/') = true then
            if d2.takeWhile isDigitChar = [] then []
            else '/' :: d2.takeWhile isDigitChar
          else []) = '/' :: d2
    rw [if_pos (show ('/' == '.' || '/' == ',' || '/' == '/') = true from rfl),
        htw2, if_neg h3]
  have hafter : afterFrac ('/' :: d2) = [] := by
    rw [afterFrac, hfr, List.drop_length]
  have hnum : matchNumberAlt (d1 ++ '/' :: d2) = some (d1 ++ '/' :: d2, []) := by
    rw [matchNumberAlt, hds, hdw, if_neg h1, hfr, hafter]
    simp [rangeStep]
  rw [matchAmount, hnum]
  rfl

/-- Claim C10, amended: on a line of the form `d1/d2 rest` (`d1`, `d2`
nonempty ASCII digit runs, `rest` carrying no trailing whitespace and not
continuing the match with a range fragment `-\d+`), the amount matcher accepts
the ASCII slash fraction: the matched amount is exactly `d1/d2`, and whenever
`parse_ingredient_text` returns an ingredient at all (the name cleaner can
still reject the remainder), its amount field is `d1/d2`, not `"?"`. -/
theorem slash_fraction_amount (d1 d2 rest : List Char) (ing : Ingredient)
    (h1 : d1 ≠ []) (h2 : ∀ a ∈ d1, isDigitChar a = true)
    (h3 : d2 ≠ []) (h4 : ∀ a ∈ d2, isDigitChar a = true)
    (h5 : noRangeAfter rest = true)
    (h6 : rdropRun isSpaceChar rest = rest)
    (hp : parse_ingredient_text (String.mk (d1 ++ '/' :: (d2 ++ ' ' :: rest))) = some ing) :
    matchAmount (d1 ++ '/' :: (d2 ++ ' ' :: rest)) = some (d1 ++ '/' :: d2, ' ' :: rest) ∧
    ing.amount = String.mk (d1 ++ '/' :: d2) := by
  refine ⟨slash_amount_match d1 d2 rest h1 h2 h3 h4 h5, ?_⟩
  have hamt := parse_ingredient_text_amount _ _ hp
  have hnosp : ∀ c ∈ d1 ++ '/' :: d2, isSpaceChar c = false := by
    intro c hc
    rcases List.mem_append.mp hc with h | h
    · exact digit_not_space c (h2 c h)
    · rcases List.mem_cons.mp h with h | h
      · subst h; rfl
      · exact digit_not_space c (h4 c h)
  have hdwL : (d1 ++ '/' :: (d2 ++ ' ' :: rest)).dropWhile isSpaceChar =
      d1 ++ '/' :: (d2 ++ ' ' :: rest) := by
    cases d1 with
    | nil => exact absurd rfl h1
    | cons a d1t =>
      rw [List.cons_append, List.dropWhile_cons,
          digit_not_space a (h2 a (List.mem_cons_self _ _))]
      simp
  by_cases hrest : rest = []
  · subst hrest
    have hstrip : stripChars (d1 ++ '/' :: (d2 ++ [' '])) = d1 ++ '/' :: d2 := by
      rw [stripChars, hdwL,
          show d1 ++ '/' :: (d2 ++ [' ']) = (d1 ++ '/' :: d2) ++ [' '] by simp,
          rdropRun_append_full]
      rw [if_pos (show rdropRun isSpaceChar [' '] = [] from rfl),
          rdropRun_of_no _ _ hnosp]
    rw [hamt]
    show (amountStep (stripChars (d1 ++ '/' :: (d2 ++ [' '])))).1 = String.mk (d1 ++ '/' :: d2)
    rw [hstrip, amountStep, slash_amount_match_nil d1 d2 h1 h2 h3 h4]
  · have hB : rdropRun isSpaceChar (' ' :: rest) = ' ' :: rest := by
      show (match rdropRun isSpaceChar rest with
            | [] => if isSpaceChar ' ' then [] else [' ']
            | r => ' ' :: r) = ' ' :: rest
      rw [h6]
      cases hr : rest with
      | nil => exact absurd hr hrest
      | cons e es => rfl
    have hstrip : stripChars (d1 ++ '/' :: (d2 ++ ' ' :: rest)) =
        d1 ++ '/' :: (d2 ++ ' ' :: rest) := by
      rw [stripChars, hdwL,
          show d1 ++ '/' :: (d2 ++ ' ' :: rest) = (d1 ++ '/' :: d2) ++ (' ' :: rest) by simp,
          rdropRun_append_full, hB]
      rw [if_neg (by simp)]
    rw [hamt]
    show (amountStep (stripChars (d1 ++ '/' :: (d2 ++ ' ' :: rest)))).1 =
      String.mk (d1 ++ '/' :: d2)
    rw [hstrip, amountStep, slash_amount_match d1 d2 rest h1 h2 h3 h4 h5]

/-- Witness for C10 (amended) at the line `"1/2 citron"`. -/
theorem slash_fraction_amount_witness :
    matchAmount (['1'] ++ '/' :: (['2'] ++ ' ' :: "citron".data)) =
      some (['1'] ++ '/' :: ['2'], ' ' :: "citron".data) ∧
    (Ingredient.mk "citron" "1/2" "").amount = String.mk (['1'] ++ '/' :: ['2']) :=
  slash_fraction_amount ['1'] ['2'] "citron".data ⟨"citron", "1/2", ""⟩
    (by decide) (by decide) (by decide) (by decide) (by decide) (by decide) (by decide)

/-- Claim C10, counterexample to the original universal statement: on
`"1/2 og"` (which begins with digits, a slash, digits and a space) the parser
returns no ingredient at all — the remainder `"og"` is a non-ingredient word —
and on `"1/2 - 3 citron"` the matched amount is the full range `"1/2 - 3"`,
not the bare slash fraction. -/
theorem slash_fraction_claim_counterexample :
    parse_ingredient_text "1/2 og" = none ∧
    parse_ingredient_text "1/2 - 3 citron" = some ⟨"citron", "1/2 - 3", ""⟩ :=
  ⟨rfl, rfl⟩

end RecipeCalc
